import Mathlib

/- Shallow embedding of the AuroraDB replication engine (src/auroradb.js).

   JavaScript objects handled by the store are modelled as JsRecord: an
   association list of payload properties plus the two bookkeeping
   properties _timestamp and _version (an absent property is Option.none;
   the JS idiom x || 0 on these integer properties is getD 0).
   DataValidator.sanitize is a structural clone (a JSON round trip) and is
   the identity on modelled records, so it is not represented.  -/

inductive JsVal where
  | str (s : String)
  | num (n : Int)
  | boolean (b : Bool)
  | null
  | undef
deriving DecidableEq

structure JsRecord where
  fields : List (String × JsVal)
  ts? : Option Int
  ver? : Option Int
deriving DecidableEq

/- First-match association-list lookup: the semantics of reading an object
   property or a Map / IndexedDB key. -/
def alistGet {κ ν : Type} [DecidableEq κ] : List (κ × ν) → κ → Option ν
  | [], _ => none
  | (k', v) :: rest, k => if k = k' then some v else alistGet rest k

/- Replace-or-append update: the semantics of Map.set and of an IndexedDB
   put with an in-line key. -/
def alistPut {κ ν : Type} [DecidableEq κ] : List (κ × ν) → κ → ν → List (κ × ν)
  | [], k, v => [(k, v)]
  | (k', v') :: rest, k, v =>
      if k = k' then (k, v) :: rest else (k', v') :: alistPut rest k v

theorem alistGet_put_self {κ ν : Type} [DecidableEq κ]
    (l : List (κ × ν)) (k : κ) (v : ν) :
    alistGet (alistPut l k v) k = some v := by
  induction l with
  | nil => simp [alistGet, alistPut]
  | cons hd tl ih =>
      obtain ⟨k', v'⟩ := hd
      by_cases h : k = k' <;> simp [alistPut, alistGet, h, ih]

theorem alistGet_put_ne {κ ν : Type} [DecidableEq κ]
    (l : List (κ × ν)) (k k₂ : κ) (v : ν) (h : k₂ ≠ k) :
    alistGet (alistPut l k v) k₂ = alistGet l k₂ := by
  induction l with
  | nil => simp [alistGet, alistPut, h]
  | cons hd tl ih =>
      obtain ⟨k', v'⟩ := hd
      by_cases hk : k = k'
      · subst hk
        simp [alistPut, alistGet, h]
      · by_cases hk2 : k₂ = k' <;> simp [alistPut, alistGet, hk, hk2, ih]

def verOrZero (r : JsRecord) : Int := r.ver?.getD 0

def tsOrZero (r : JsRecord) : Int := r.ts?.getD 0

/- Reading a property of a JS object: an absent property reads as undefined. -/
def jsGetField (r : JsRecord) (f : String) : JsVal :=
  (alistGet r.fields f).getD JsVal.undef

/- JS coercion of a value to a property key (String(x)), as performed by the
   entries Proxy traps: obj[k] stringifies k before the trap receives it. -/
def propKey : JsVal → String
  | .str s => s
  | .num n => toString n
  | .boolean b => cond b "true" "false"
  | .null => "null"
  | .undef => "undefined"

/- The IndexedDB object store of one collection: records keyed by the value
   of the record field named by scheme.keyPath. -/
abbrev KVStore := List (JsVal × JsRecord)

def storeGet (st : KVStore) (k : JsVal) : Option JsRecord := alistGet st k

def storePut (st : KVStore) (k : JsVal) (r : JsRecord) : KVStore := alistPut st k r

/- timestampedValue = { ...sanitizedValue, [this.scheme.keyPath]: key,
     _timestamp: Date.now(), _version: (sanitizedValue._version || 0) + 1 }
   as built identically by the entries Proxy set trap (auroradb.js lines
   1411-1416) and by IDBStore.batchSet (lines 1620-1625). -/
def stampRecord (kp : String) (k : JsVal) (now : Int) (v : JsRecord) : JsRecord :=
  { fields := (kp, k) :: v.fields, ts? := some now, ver? := some (verOrZero v + 1) }

/- The entries Proxy set trap (lines 1408-1426): the property key reaching
   the trap is always a string; the write goes through store.put with the
   in-line key, the string key. -/
def entriesSet (st : KVStore) (kp : String) (now : Int) (key : String) (v : JsRecord) : KVStore :=
  storePut st (JsVal.str key) (stampRecord kp (JsVal.str key) now v)

/- AuroraDB.add (lines 2303-2325): entry = { ...data, [keyPath]: key } for an
   object payload, then this.db.entries[key] = entry.  The proxy assignment
   stringifies the key, so string keys are modelled. -/
def auroraAdd (st : KVStore) (kp : String) (now : Int) (key : String) (data : JsRecord) : KVStore :=
  entriesSet st kp now key { data with fields := (kp, JsVal.str key) :: data.fields }

/- The _version of the record stored under k, 0 when absent or unversioned. -/
def storedVer (st : KVStore) (k : JsVal) : Int :=
  ((storeGet st k).map verOrZero).getD 0

/- The read-modify-write client pattern over add / the entries set trap:
   each step reads the current record for the key and writes it back with a
   replaced payload, so the version property of the stored record is carried
   into the next write. -/
def rmwChain (kp key : String) : KVStore → List (List (String × JsVal) × Int) → KVStore
  | st, [] => st
  | st, (pl, now) :: rest =>
      rmwChain kp key
        (auroraAdd st kp now key
          { (storeGet st (JsVal.str key)).getD ⟨[], none, none⟩ with fields := pl })
        rest

theorem storedVer_auroraAdd (st : KVStore) (kp : String) (now : Int) (key : String)
    (data : JsRecord) :
    storedVer (auroraAdd st kp now key data) (JsVal.str key) = verOrZero data + 1 := by
  simp [auroraAdd, entriesSet, storedVer, storeGet, storePut, alistGet_put_self,
    stampRecord, verOrZero]

theorem rmwChain_storedVer (kp key : String)
    (upds : List (List (String × JsVal) × Int)) (st : KVStore) :
    storedVer (rmwChain kp key st upds) (JsVal.str key) =
      storedVer st (JsVal.str key) + upds.length := by
  induction upds generalizing st with
  | nil => simp [rmwChain]
  | cons hd tl ih =>
      obtain ⟨pl, now⟩ := hd
      rw [rmwChain, ih, storedVer_auroraAdd]
      have hbase : verOrZero { (storeGet st (JsVal.str key)).getD ⟨[], none, none⟩ with
          fields := pl } = storedVer st (JsVal.str key) := by
        cases h : storeGet st (JsVal.str key) <;> simp [storedVer, verOrZero, h]
      rw [hbase]
      simp only [List.length_cons]
      push_cast
      ring

/-- C1: the claim states that N successful local writes to one key leave a
strictly increasing stored version equal to N.  On the source this fails:
the set trap stamps _version from the value being written, not from the
previously stored record, so the amended claim holds instead: every write
stores exactly stampRecord, whose version is (written value version or 0) + 1
and whose timestamp is the write-time clock; the stored version reaches N
exactly for the read-modify-write chain that carries the stored version into
each next write. -/
theorem add_stamps_version_from_input :
    (∀ (st : KVStore) (kp : String) (now : Int) (key : String) (v : JsRecord),
        storeGet (entriesSet st kp now key v) (JsVal.str key) =
          some (stampRecord kp (JsVal.str key) now v)) ∧
    (∀ (kp key : String) (upds : List (List (String × JsVal) × Int)),
        storedVer (rmwChain kp key [] upds) (JsVal.str key) = upds.length) := by
  constructor
  · intro st kp now key v
    simp [entriesSet, storeGet, storePut, alistGet_put_self]
  · intro kp key upds
    rw [rmwChain_storedVer]
    simp [storedVer, storeGet, alistGet]

/-- C1 counterexample: two successive AuroraDB.add writes of a fresh payload
(no version property) to key a store version 1 both times, so after the
second write the version is 1, not 2, and the sequence 1, 1 is not strictly
increasing. -/
theorem add_version_counterexample :
    storedVer (auroraAdd [] "id" 10 "a" ⟨[("name", JsVal.str "x")], none, none⟩)
        (JsVal.str "a") = 1 ∧
    storedVer
        (auroraAdd (auroraAdd [] "id" 10 "a" ⟨[("name", JsVal.str "x")], none, none⟩)
          "id" 20 "a" ⟨[("name", JsVal.str "x")], none, none⟩)
        (JsVal.str "a") = 1 := by
  constructor <;> rfl

/- ConflictResolver.resolveConflict (auroradb.js lines 1333-1365).  The JS
   function returns one of three references: the local object, the remote
   object, or a freshly built merge object.  PeerStore.mergeRemoteData
   distinguishes the first case by reference identity (resolved !== local),
   so the outcome is modelled as a tagged value rather than a bare record. -/
inductive ResolveOutcome where
  | useLocal
  | useRemote
  | fresh (merged : JsRecord)
deriving DecidableEq

/- The merge branch: { ...local, ...remote, _timestamp: Math.max(..), _version:
   Math.max(..) + 1 }.  Spread union with the remote overriding on collision
   is first-match lookup over remote fields then local fields. -/
def unionFields (l r : List (String × JsVal)) : List (String × JsVal) := r ++ l

def mergeRecords (l r : JsRecord) : JsRecord :=
  { fields := unionFields l.fields r.fields,
    ts? := some (max (tsOrZero l) (tsOrZero r)),
    ver? := some (max (verOrZero l) (verOrZero r) + 1) }

def resolveConflict (local? remote? : Option JsRecord) (strategy : String) : ResolveOutcome :=
  match local?, remote? with
  | none, _ => .useRemote
  | some _, none => .useLocal
  | some l, some r =>
      if strategy = "timestamp" then
        (if tsOrZero r ≤ tsOrZero l then .useLocal else .useRemote)
      else if strategy = "version" then
        (if verOrZero r ≤ verOrZero l then .useLocal else .useRemote)
      else if strategy = "merge" then .fresh (mergeRecords l r)
      else if strategy = "local-wins" then .useLocal
      else if strategy = "remote-wins" then .useRemote
      else .useLocal

/- The argument of mergeRemoteData: Array.isArray distinguishes an actual
   array of records from any other value. -/
inductive RemoteData where
  | array (entries : List JsRecord)
  | notArray (v : JsVal)
deriving DecidableEq

/- Valid IndexedDB keys among modelled values: strings and numbers.  A put
   whose in-line key is any other value fails with a DataError, aborting the
   batch transaction. -/
def validIdbKey : JsVal → Bool
  | .str _ => true
  | .num _ => true
  | _ => false

/- IDBStore.batchSet (lines 1599-1639): each [key, value] pair is stamped by
   stampRecord and written by store.put in order inside one transaction; a
   failing put rejects and aborts the transaction (none = thrown, no partial
   state).  One wall-clock value models the consecutive Date.now() calls. -/
def batchSet (kp : String) (now : Int) : KVStore → List (JsVal × JsRecord) → Option KVStore
  | st, [] => some st
  | st, (k, v) :: rest =>
      if validIdbKey k then batchSet kp now (storePut st k (stampRecord kp k now v)) rest
      else none

/- The staging loop of PeerStore.mergeRemoteData (lines 2064-2082): key =
   remoteEntry[keyPath]; localEntry = await this.entries[key] (the Proxy get
   trap stringifies the key before store.get); an absent local record stages
   an insert, otherwise the resolver outcome decides.  All reads use the
   store as it was before the batch is applied. -/
def stagePass (st : KVStore) (kp strat : String) : List JsRecord → List (JsVal × JsRecord) × Nat
  | [] => ([], 0)
  | r :: rest =>
      let k := jsGetField r kp
      let (ups, cs) := stagePass st kp strat rest
      match storeGet st (JsVal.str (propKey k)) with
      | none => ((k, r) :: ups, cs)
      | some l =>
          match resolveConflict (some l) (some r) strat with
          | .useLocal => (ups, cs)
          | .useRemote => ((k, r) :: ups, cs + 1)
          | .fresh m => ((k, m) :: ups, cs + 1)

/- PeerStore.mergeRemoteData (lines 2056-2089): non-arrays return zero counts
   untouched; otherwise the staged updates are applied by one batchSet call
   and the function returns (state, updates.length, conflicts.length).  A none
   result is a thrown error (the batch aborted). -/
def mergeRemoteData (st : KVStore) (kp strat : String) (now : Int) (input : RemoteData) :
    Option (KVStore × Nat × Nat) :=
  match input with
  | .notArray _ => some (st, 0, 0)
  | .array rs =>
      let (ups, cs) := stagePass st kp strat rs
      match batchSet kp now st ups with
      | none => none
      | some st1 => some (st1, ups.length, cs)

/-- C10: for every input that is not an array, mergeRemoteData returns zero
update and conflict counts and leaves the store completely unchanged: no
staging and no batch write happen. -/
theorem mergeRemoteData_not_array (st : KVStore) (kp strat : String) (now : Int) (v : JsVal) :
    mergeRemoteData st kp strat now (RemoteData.notArray v) = some (st, 0, 0) := rfl

theorem resolveConflict_timestamp_eq (l r : JsRecord) :
    resolveConflict (some l) (some r) "timestamp" =
      if tsOrZero r ≤ tsOrZero l then ResolveOutcome.useLocal else ResolveOutcome.useRemote := rfl

theorem resolveConflict_version_eq (l r : JsRecord) :
    resolveConflict (some l) (some r) "version" =
      if verOrZero r ≤ verOrZero l then ResolveOutcome.useLocal else ResolveOutcome.useRemote := rfl

theorem resolveConflict_merge_eq (l r : JsRecord) :
    resolveConflict (some l) (some r) "merge" = ResolveOutcome.fresh (mergeRecords l r) := rfl

theorem alistGet_append {ν : Type} (l₁ l₂ : List (String × ν)) (k : String) :
    alistGet (l₁ ++ l₂) k = (alistGet l₁ k).or (alistGet l₂ k) := by
  induction l₁ with
  | nil => simp [alistGet]
  | cons hd tl ih =>
      obtain ⟨k', v'⟩ := hd
      by_cases h : k = k' <;> simp [alistGet, h, ih]

/- The concrete scenario of the spec: collection users, strategy timestamp,
   keyPath id. -/
def demoLocal : JsRecord := ⟨[("id", JsVal.str "a"), ("name", JsVal.str "Alice")], some 100, some 1⟩

def demoRemote : JsRecord := ⟨[("id", JsVal.str "a"), ("name", JsVal.str "Alicia")], some 200, some 1⟩

def demoStore : KVStore := [(JsVal.str "a", demoLocal)]

/-- C2: the claim asserts that after the timestamp-strategy merge of the
scenario the stored record keeps timestamp 200 and version 1.  On the source
it does not: batchSet restamps every staged update, so the amended claim
holds: get a returns name Alicia, the reported result is updates 1 and
conflicts 1, but the stored timestamp is the wall clock of the merge and the
stored version is 2 (the remote version plus one). -/
theorem merge_timestamp_scenario (now : Int) :
    mergeRemoteData demoStore "id" "timestamp" now (RemoteData.array [demoRemote]) =
      some ([(JsVal.str "a", stampRecord "id" (JsVal.str "a") now demoRemote)], 1, 1) ∧
    jsGetField (stampRecord "id" (JsVal.str "a") now demoRemote) "name" = JsVal.str "Alicia" ∧
    (stampRecord "id" (JsVal.str "a") now demoRemote).ts? = some now ∧
    (stampRecord "id" (JsVal.str "a") now demoRemote).ver? = some 2 := by
  refine ⟨rfl, rfl, rfl, rfl⟩

/-- C2 counterexample: running the scenario at merge time 777 stores version 2
and timestamp 777 under key a, not version 1 and timestamp 200 as claimed. -/
theorem merge_timestamp_scenario_counterexample :
    ((mergeRemoteData demoStore "id" "timestamp" 777 (RemoteData.array [demoRemote])).map
        (fun out => (storeGet out.1 (JsVal.str "a")).map (fun r => (r.ver?, r.ts?)))) =
      some (some (some 2, some 777)) ∧
    ¬ ((mergeRemoteData demoStore "id" "timestamp" 777 (RemoteData.array [demoRemote])).map
        (fun out => (storeGet out.1 (JsVal.str "a")).map (fun r => (r.ver?, r.ts?)))) =
      some (some (some 1, some 200)) := by
  constructor
  · rfl
  · decide

/-- C4: the claim asserts that a version-strategy merge of remote version 5
over local version 3 resolves to the remote record and stores version 5.  The
resolution does pick the remote record and ties do favor the local one, but
batchSet restamps the staged update, so the amended claim holds: the stored
record is the remote record stamped with version 6, and the merge reports one
update and one conflict. -/
theorem version_strategy_remote_wins (st : KVStore) (kp : String) (now : Int) (s : String)
    (l r : JsRecord)
    (hl : l.ver? = some 3) (hr : r.ver? = some 5)
    (hk : alistGet r.fields kp = some (JsVal.str s))
    (hs : storeGet st (JsVal.str s) = some l) :
    resolveConflict (some l) (some r) "version" = ResolveOutcome.useRemote ∧
    (∀ l₂ r₂ : JsRecord, verOrZero l₂ = verOrZero r₂ →
        resolveConflict (some l₂) (some r₂) "version" = ResolveOutcome.useLocal) ∧
    mergeRemoteData st kp "version" now (RemoteData.array [r]) =
      some (storePut st (JsVal.str s) (stampRecord kp (JsVal.str s) now r), 1, 1) ∧
    (stampRecord kp (JsVal.str s) now r).ver? = some 6 := by
  have hres : resolveConflict (some l) (some r) "version" = ResolveOutcome.useRemote := by
    rw [resolveConflict_version_eq]
    simp [verOrZero, hl, hr]
  refine ⟨hres, ?_, ?_, ?_⟩
  · intro l₂ r₂ h
    rw [resolveConflict_version_eq]
    simp [h]
  · have hkey : jsGetField r kp = JsVal.str s := by simp [jsGetField, hk]
    have hstage : stagePass st kp "version" [r] = ([(JsVal.str s, r)], 1) := by
      simp [stagePass, hkey, propKey, hs, hres]
    have hbatch : batchSet kp now st [(JsVal.str s, r)] =
        some (storePut st (JsVal.str s) (stampRecord kp (JsVal.str s) now r)) := by
      simp [batchSet, validIdbKey]
    simp [mergeRemoteData, hstage, hbatch]
  · simp [stampRecord, verOrZero, hr]

/-- C4 witness: the remote-wins merge at concrete records with local version 3
and remote version 5. -/
theorem version_strategy_remote_wins_witness :
    resolveConflict (some ⟨[("id", JsVal.str "k")], some 10, some 3⟩)
        (some ⟨[("id", JsVal.str "k")], some 20, some 5⟩) "version" =
      ResolveOutcome.useRemote ∧
    mergeRemoteData [(JsVal.str "k", ⟨[("id", JsVal.str "k")], some 10, some 3⟩)]
        "id" "version" 99
        (RemoteData.array [⟨[("id", JsVal.str "k")], some 20, some 5⟩]) =
      some (storePut [(JsVal.str "k", ⟨[("id", JsVal.str "k")], some 10, some 3⟩)]
        (JsVal.str "k")
        (stampRecord "id" (JsVal.str "k") 99 ⟨[("id", JsVal.str "k")], some 20, some 5⟩), 1, 1) := by
  obtain ⟨h1, _, h3, _⟩ :=
    version_strategy_remote_wins
      [(JsVal.str "k", ⟨[("id", JsVal.str "k")], some 10, some 3⟩)] "id" 99 "k"
      ⟨[("id", JsVal.str "k")], some 10, some 3⟩
      ⟨[("id", JsVal.str "k")], some 20, some 5⟩
      rfl rfl rfl rfl
  exact ⟨h1, h3⟩

/-- C4 counterexample: the concrete version-strategy merge of remote version 5
over local version 3 stores version 6 under the key, not version 5 as the
claim states. -/
theorem version_strategy_counterexample :
    ((mergeRemoteData [(JsVal.str "k", ⟨[("id", JsVal.str "k")], some 10, some 3⟩)]
          "id" "version" 99
          (RemoteData.array [⟨[("id", JsVal.str "k")], some 20, some 5⟩])).map
        (fun out => (storeGet out.1 (JsVal.str "k")).map JsRecord.ver?)) =
      some (some (some 6)) ∧
    ¬ ((mergeRemoteData [(JsVal.str "k", ⟨[("id", JsVal.str "k")], some 10, some 3⟩)]
          "id" "version" 99
          (RemoteData.array [⟨[("id", JsVal.str "k")], some 20, some 5⟩])).map
        (fun out => (storeGet out.1 (JsVal.str "k")).map JsRecord.ver?)) =
      some (some (some 5)) := by
  constructor
  · rfl
  · decide

/-- C5: under the merge strategy the resolver always produces a fresh record
whose payload is the shallow union with remote fields overriding on
collision, whose version is max of the two versions plus one and whose
timestamp is the max of the two timestamps, for every pair of records. -/
theorem merge_strategy_shape (l r : JsRecord) (lv rv lt rt : Int)
    (hlv : l.ver? = some lv) (hrv : r.ver? = some rv)
    (hlt : l.ts? = some lt) (hrt : r.ts? = some rt) :
    resolveConflict (some l) (some r) "merge" = ResolveOutcome.fresh (mergeRecords l r) ∧
    (mergeRecords l r).ver? = some (max lv rv + 1) ∧
    (mergeRecords l r).ts? = some (max lt rt) ∧
    ∀ f : String, alistGet (mergeRecords l r).fields f =
      (alistGet r.fields f).or (alistGet l.fields f) := by
  refine ⟨resolveConflict_merge_eq l r, ?_, ?_, ?_⟩
  · simp [mergeRecords, verOrZero, hlv, hrv]
  · simp [mergeRecords, tsOrZero, hlt, hrt]
  · intro f
    simp [mergeRecords, unionFields, alistGet_append]

/-- C5 witness: the merge-strategy resolution of two concrete records with a
colliding field. -/
theorem merge_strategy_shape_witness :
    resolveConflict (some ⟨[("a", JsVal.num 1), ("b", JsVal.num 2)], some 50, some 4⟩)
        (some ⟨[("b", JsVal.num 9)], some 30, some 7⟩) "merge" =
      ResolveOutcome.fresh
        (mergeRecords ⟨[("a", JsVal.num 1), ("b", JsVal.num 2)], some 50, some 4⟩
          ⟨[("b", JsVal.num 9)], some 30, some 7⟩) ∧
    (mergeRecords ⟨[("a", JsVal.num 1), ("b", JsVal.num 2)], some 50, some 4⟩
        ⟨[("b", JsVal.num 9)], some 30, some 7⟩).ver? = some (max 4 7 + 1) ∧
    (mergeRecords ⟨[("a", JsVal.num 1), ("b", JsVal.num 2)], some 50, some 4⟩
        ⟨[("b", JsVal.num 9)], some 30, some 7⟩).ts? = some (max 50 30) := by
  obtain ⟨h1, h2, h3, _⟩ :=
    merge_strategy_shape ⟨[("a", JsVal.num 1), ("b", JsVal.num 2)], some 50, some 4⟩
      ⟨[("b", JsVal.num 9)], some 30, some 7⟩ 4 7 50 30 rfl rfl rfl rfl
  exact ⟨h1, h2, h3⟩

/- The key property values of a remote batch, in order. -/
def remoteKeys (kp : String) (rs : List JsRecord) : List JsVal :=
  rs.map (fun r => jsGetField r kp)

theorem stagePass_cons (st : KVStore) (kp strat : String) (r : JsRecord)
    (rest : List JsRecord) :
    stagePass st kp strat (r :: rest) =
      match storeGet st (JsVal.str (propKey (jsGetField r kp))) with
      | none => ((jsGetField r kp, r) :: (stagePass st kp strat rest).1,
                 (stagePass st kp strat rest).2)
      | some l =>
          match resolveConflict (some l) (some r) strat with
          | .useLocal => stagePass st kp strat rest
          | .useRemote => ((jsGetField r kp, r) :: (stagePass st kp strat rest).1,
                           (stagePass st kp strat rest).2 + 1)
          | .fresh m => ((jsGetField r kp, m) :: (stagePass st kp strat rest).1,
                         (stagePass st kp strat rest).2 + 1) := by
  cases hsp : stagePass st kp strat rest with
  | mk u c => rw [stagePass, hsp]


theorem stagePass_cons_none (st : KVStore) (kp strat : String) (r : JsRecord)
    (rest : List JsRecord)
    (h : storeGet st (JsVal.str (propKey (jsGetField r kp))) = none) :
    stagePass st kp strat (r :: rest) =
      ((jsGetField r kp, r) :: (stagePass st kp strat rest).1,
       (stagePass st kp strat rest).2) := by
  rw [stagePass_cons, h]

theorem stagePass_version_cons_local (st : KVStore) (kp : String) (r l : JsRecord)
    (rest : List JsRecord)
    (h : storeGet st (JsVal.str (propKey (jsGetField r kp))) = some l)
    (hle : verOrZero r ≤ verOrZero l) :
    stagePass st kp "version" (r :: rest) = stagePass st kp "version" rest := by
  simp only [stagePass_cons, h, resolveConflict_version_eq, hle, if_true]

theorem stagePass_version_cons_remote (st : KVStore) (kp : String) (r l : JsRecord)
    (rest : List JsRecord)
    (h : storeGet st (JsVal.str (propKey (jsGetField r kp))) = some l)
    (hlt : verOrZero l < verOrZero r) :
    stagePass st kp "version" (r :: rest) =
      ((jsGetField r kp, r) :: (stagePass st kp "version" rest).1,
       (stagePass st kp "version" rest).2 + 1) := by
  have hn : ¬ verOrZero r ≤ verOrZero l := by omega
  simp only [stagePass_cons, h, resolveConflict_version_eq, hn, if_false]

theorem staged_mem (st : KVStore) (kp : String) (rs : List JsRecord) (r : JsRecord)
    (s : String) (hmem : r ∈ rs) (hks : jsGetField r kp = JsVal.str s)
    (hcase : storeGet st (JsVal.str s) = none ∨
      ∃ l, storeGet st (JsVal.str s) = some l ∧ verOrZero l < verOrZero r) :
    (JsVal.str s, r) ∈ (stagePass st kp "version" rs).1 := by
  induction rs with
  | nil => cases hmem
  | cons r0 rest ih =>
      rcases List.mem_cons.mp hmem with heq | htail
      · subst heq
        rcases hcase with hnone | ⟨l, hsome, hlt⟩
        · rw [stagePass_cons_none st kp "version" r rest (by rw [hks]; exact hnone), hks]
          exact List.mem_cons_self _ _
        · rw [stagePass_version_cons_remote st kp r l rest (by rw [hks]; exact hsome) hlt, hks]
          exact List.mem_cons_self _ _
      · rcases h0 : storeGet st (JsVal.str (propKey (jsGetField r0 kp))) with _ | l
        · rw [stagePass_cons_none st kp "version" r0 rest h0]
          exact List.mem_cons_of_mem _ (ih htail)
        · by_cases hle : verOrZero r0 ≤ verOrZero l
          · rw [stagePass_version_cons_local st kp r0 l rest h0 hle]
            exact ih htail
          · rw [stagePass_version_cons_remote st kp r0 l rest h0 (by omega)]
            exact List.mem_cons_of_mem _ (ih htail)

theorem staged_spec (st : KVStore) (kp : String) (rs : List JsRecord) :
    ∀ p ∈ (stagePass st kp "version" rs).1,
      ∃ r ∈ rs, jsGetField r kp = p.1 ∧ p.2 = r ∧
        (storeGet st (JsVal.str (propKey p.1)) = none ∨
         ∃ l, storeGet st (JsVal.str (propKey p.1)) = some l ∧ verOrZero l < verOrZero r) := by
  induction rs with
  | nil => intro p hp; simp [stagePass] at hp
  | cons r0 rest ih =>
      intro p hp
      rcases h0 : storeGet st (JsVal.str (propKey (jsGetField r0 kp))) with _ | l
      · rw [stagePass_cons_none st kp "version" r0 rest h0] at hp
        rcases List.mem_cons.mp hp with heq | htail
        · subst heq
          exact ⟨r0, List.mem_cons_self _ _, rfl, rfl, Or.inl h0⟩
        · obtain ⟨r, hr, h1, h2, h3⟩ := ih p htail
          exact ⟨r, List.mem_cons_of_mem _ hr, h1, h2, h3⟩
      · by_cases hle : verOrZero r0 ≤ verOrZero l
        · rw [stagePass_version_cons_local st kp r0 l rest h0 hle] at hp
          obtain ⟨r, hr, h1, h2, h3⟩ := ih p hp
          exact ⟨r, List.mem_cons_of_mem _ hr, h1, h2, h3⟩
        · rw [stagePass_version_cons_remote st kp r0 l rest h0 (by omega)] at hp
          rcases List.mem_cons.mp hp with heq | htail
          · subst heq
            exact ⟨r0, List.mem_cons_self _ _, rfl, rfl, Or.inr ⟨l, h0, by omega⟩⟩
          · obtain ⟨r, hr, h1, h2, h3⟩ := ih p htail
            exact ⟨r, List.mem_cons_of_mem _ hr, h1, h2, h3⟩

theorem staged_keys_nodup (st : KVStore) (kp : String) (rs : List JsRecord)
    (hnd : (remoteKeys kp rs).Nodup) :
    ((stagePass st kp "version" rs).1.map Prod.fst).Nodup := by
  induction rs with
  | nil => simp [stagePass]
  | cons r0 rest ih =>
      have hnd' : (remoteKeys kp rest).Nodup := by
        simpa [remoteKeys] using hnd.of_cons
      have hhead : jsGetField r0 kp ∉ remoteKeys kp rest := by
        have h := hnd
        rw [remoteKeys, List.map_cons] at h
        exact (List.nodup_cons.mp h).1
      have hfresh : jsGetField r0 kp ∉ ((stagePass st kp "version" rest).1.map Prod.fst) := by
        intro hin
        obtain ⟨p, hp, hfst⟩ := List.mem_map.mp hin
        obtain ⟨r, hr, h1, _, _⟩ := staged_spec st kp rest p hp
        exact hhead (by
          rw [← hfst, ← h1]
          exact List.mem_map_of_mem _ hr)
      rcases h0 : storeGet st (JsVal.str (propKey (jsGetField r0 kp))) with _ | l
      · rw [stagePass_cons_none st kp "version" r0 rest h0]
        exact List.nodup_cons.mpr ⟨hfresh, ih hnd'⟩
      · by_cases hle : verOrZero r0 ≤ verOrZero l
        · rw [stagePass_version_cons_local st kp r0 l rest h0 hle]
          exact ih hnd'
        · rw [stagePass_version_cons_remote st kp r0 l rest h0 (by omega)]
          exact List.nodup_cons.mpr ⟨hfresh, ih hnd'⟩

/- The fold of store.put calls a successful batchSet performs. -/
def applyUps (kp : String) (now : Int) : KVStore → List (JsVal × JsRecord) → KVStore
  | st, [] => st
  | st, (k, v) :: rest => applyUps kp now (storePut st k (stampRecord kp k now v)) rest

theorem batchSet_eq_applyUps (kp : String) (now : Int) (ups : List (JsVal × JsRecord)) :
    ∀ st : KVStore, (∀ p ∈ ups, validIdbKey p.1 = true) →
      batchSet kp now st ups = some (applyUps kp now st ups) := by
  induction ups with
  | nil => intro st _; rfl
  | cons hd tl ih =>
      intro st hv
      obtain ⟨k, v⟩ := hd
      have hk : validIdbKey k = true := hv (k, v) (List.mem_cons_self _ _)
      rw [batchSet, if_pos hk, applyUps]
      exact ih _ (fun p hp => hv p (List.mem_cons_of_mem _ hp))

theorem applyUps_get_notmem (kp : String) (now : Int) (ups : List (JsVal × JsRecord)) :
    ∀ (st : KVStore) (k : JsVal), k ∉ ups.map Prod.fst →
      storeGet (applyUps kp now st ups) k = storeGet st k := by
  induction ups with
  | nil => intro st k _; rfl
  | cons hd tl ih =>
      intro st k hk
      obtain ⟨k0, v0⟩ := hd
      have hne : k ≠ k0 := by
        intro h
        exact hk (by simp [h])
      have htl : k ∉ tl.map Prod.fst := by
        intro h
        exact hk (by simp [h])
      rw [applyUps, ih _ k htl]
      exact alistGet_put_ne st k0 k _ hne

theorem applyUps_get_mem (kp : String) (now : Int) (ups : List (JsVal × JsRecord)) :
    ∀ (st : KVStore) (k : JsVal) (v : JsRecord), (ups.map Prod.fst).Nodup →
      (k, v) ∈ ups →
      storeGet (applyUps kp now st ups) k = some (stampRecord kp k now v) := by
  induction ups with
  | nil => intro st k v _ h; cases h
  | cons hd tl ih =>
      intro st k v hnd hmem
      obtain ⟨k0, v0⟩ := hd
      rcases List.mem_cons.mp hmem with heq | htail
      · obtain ⟨h1, h2⟩ := Prod.mk.injEq .. ▸ heq
        subst h1
        subst h2
        have hnot : k ∉ tl.map Prod.fst := (List.nodup_cons.mp (by simpa using hnd)).1
        rw [applyUps, applyUps_get_notmem kp now tl _ k hnot]
        exact alistGet_put_self st k _
      · have hk0 : k ≠ k0 := by
          intro h
          subst h
          exact (List.nodup_cons.mp (by simpa using hnd)).1
            (List.mem_map_of_mem Prod.fst htail)
        rw [applyUps]
        exact ih _ k v (List.nodup_cons.mp (by simpa using hnd)).2 htail

theorem final_store_bound (st : KVStore) (kp : String) (now : Int) (rs : List JsRecord)
    (hnd : (remoteKeys kp rs).Nodup)
    (r : JsRecord) (s : String) (hmem : r ∈ rs) (hks : jsGetField r kp = JsVal.str s) :
    ∃ l', storeGet (applyUps kp now st (stagePass st kp "version" rs).1) (JsVal.str s) =
        some l' ∧ verOrZero r ≤ verOrZero l' := by
  have hupnd := staged_keys_nodup st kp rs hnd
  have hnd2 : (rs.map (fun r => jsGetField r kp)).Nodup := hnd
  rcases h0 : storeGet st (JsVal.str s) with _ | l
  · have hm := staged_mem st kp rs r s hmem hks (Or.inl h0)
    refine ⟨_, applyUps_get_mem kp now _ st (JsVal.str s) r hupnd hm, ?_⟩
    simp only [stampRecord, verOrZero, Option.getD_some]
    omega
  · by_cases hle : verOrZero r ≤ verOrZero l
    · have hnot : (JsVal.str s) ∉ (stagePass st kp "version" rs).1.map Prod.fst := by
        intro hin
        obtain ⟨p, hp, hfst⟩ := List.mem_map.mp hin
        obtain ⟨r', hr', h1, _, h3⟩ := staged_spec st kp rs p hp
        rw [hfst] at h1 h3
        rcases h3 with hnone | ⟨l2, hsome, hlt⟩
        · rw [show JsVal.str (propKey (JsVal.str s)) = JsVal.str s from rfl, h0] at hnone
          cases hnone
        · rw [show JsVal.str (propKey (JsVal.str s)) = JsVal.str s from rfl, h0] at hsome
          injection hsome with hl2
          subst hl2
          have hrr : r = r' :=
            List.inj_on_of_nodup_map hnd2 hmem hr' (by simpa using hks.trans h1.symm)
          rw [← hrr] at hlt
          omega
      exact ⟨l, by rw [applyUps_get_notmem kp now _ st _ hnot]; exact h0, hle⟩
    · have hm := staged_mem st kp rs r s hmem hks (Or.inr ⟨l, h0, by omega⟩)
      refine ⟨_, applyUps_get_mem kp now _ st (JsVal.str s) r hupnd hm, ?_⟩
      simp only [stampRecord, verOrZero, Option.getD_some]
      omega

theorem stagePass_all_local (st1 : KVStore) (kp : String) (rs : List JsRecord)
    (h : ∀ r ∈ rs, ∃ s l', jsGetField r kp = JsVal.str s ∧
      storeGet st1 (JsVal.str s) = some l' ∧ verOrZero r ≤ verOrZero l') :
    stagePass st1 kp "version" rs = ([], 0) := by
  induction rs with
  | nil => rfl
  | cons r0 rest ih =>
      obtain ⟨s, l', hks, hget, hle⟩ := h r0 (List.mem_cons_self _ _)
      rw [stagePass_version_cons_local st1 kp r0 l' rest (by rw [hks]; exact hget) hle]
      exact ih (fun r hr => h r (List.mem_cons_of_mem _ hr))

theorem mergeRemoteData_array (st : KVStore) (kp strat : String) (now : Int)
    (rs : List JsRecord) :
    mergeRemoteData st kp strat now (RemoteData.array rs) =
      match batchSet kp now st (stagePass st kp strat rs).1 with
      | none => none
      | some st1 => some (st1, (stagePass st kp strat rs).1.length, (stagePass st kp strat rs).2) := by
  cases hsp : stagePass st kp strat rs with
  | mk u c => rw [mergeRemoteData, hsp]

/-- C3: the claim states that mergeRemoteData is idempotent for every store
state and every remote batch.  On the source this fails for the merge
strategy, whose resolution always builds a fresh record and whose stored
version is bumped by every application; the amended claim holds: under the
version strategy, for a batch of records whose key fields are present,
string valued and pairwise distinct, a second application of the same batch
stages nothing, reports zero updates and zero conflicts and leaves the store
exactly as the first application left it. -/
theorem mergeRemoteData_version_idempotent
    (st : KVStore) (kp : String) (now now2 : Int) (rs : List JsRecord)
    (hstr : ∀ r ∈ rs, ∃ s, jsGetField r kp = JsVal.str s)
    (hnd : (remoteKeys kp rs).Nodup)
    (st1 : KVStore) (u c : Nat)
    (h1 : mergeRemoteData st kp "version" now (RemoteData.array rs) = some (st1, u, c)) :
    mergeRemoteData st1 kp "version" now2 (RemoteData.array rs) = some (st1, 0, 0) := by
  have hvalid : ∀ p ∈ (stagePass st kp "version" rs).1, validIdbKey p.1 = true := by
    intro p hp
    obtain ⟨r, hr, hk, _, _⟩ := staged_spec st kp rs p hp
    obtain ⟨s, hs⟩ := hstr r hr
    rw [← hk, hs]
    rfl
  have hbs := batchSet_eq_applyUps kp now (stagePass st kp "version" rs).1 st hvalid
  rw [mergeRemoteData_array, hbs] at h1
  simp only [Option.some.injEq, Prod.mk.injEq] at h1
  obtain ⟨hA, _, _⟩ := h1
  have hall : ∀ r ∈ rs, ∃ s l', jsGetField r kp = JsVal.str s ∧
      storeGet st1 (JsVal.str s) = some l' ∧ verOrZero r ≤ verOrZero l' := by
    intro r hr
    obtain ⟨s, hs⟩ := hstr r hr
    obtain ⟨l', hget, hle⟩ := final_store_bound st kp now rs hnd r s hr hs
    rw [hA] at hget
    exact ⟨s, l', hs, hget, hle⟩
  have h2 := stagePass_all_local st1 kp rs hall
  rw [mergeRemoteData_array, h2]
  rfl

/-- C3 witness: a singleton version-strategy batch applied to the empty store
inserts its record; applying the same batch to the resulting store returns
zero updates and conflicts and the identical store. -/
theorem mergeRemoteData_version_idempotent_witness :
    mergeRemoteData
        [(JsVal.str "w",
          stampRecord "id" (JsVal.str "w") 7 ⟨[("id", JsVal.str "w")], some 1, some 1⟩)]
        "id" "version" 9
        (RemoteData.array [⟨[("id", JsVal.str "w")], some 1, some 1⟩]) =
      some ([(JsVal.str "w",
          stampRecord "id" (JsVal.str "w") 7 ⟨[("id", JsVal.str "w")], some 1, some 1⟩)], 0, 0) :=
  mergeRemoteData_version_idempotent [] "id" 7 9
    [⟨[("id", JsVal.str "w")], some 1, some 1⟩]
    (by
      intro r hr
      simp only [List.mem_singleton] at hr
      subst hr
      exact ⟨"w", rfl⟩)
    (by decide)
    [(JsVal.str "w",
      stampRecord "id" (JsVal.str "w") 7 ⟨[("id", JsVal.str "w")], some 1, some 1⟩)]
    1 0 rfl

def c3Store : KVStore := [(JsVal.str "a", ⟨[("id", JsVal.str "a")], some 0, some 1⟩)]

def c3Batch : RemoteData := RemoteData.array [⟨[("id", JsVal.str "a")], some 0, some 1⟩]

/-- C3 counterexample: under the merge strategy one application of the batch
stores version 3 under key a while a second application of the same batch
stores version 5, so the final stores differ and mergeRemoteData is not
idempotent as claimed. -/
theorem merge_strategy_not_idempotent :
    ((mergeRemoteData c3Store "id" "merge" 5 c3Batch).map
        (fun o => storedVer o.1 (JsVal.str "a"))) = some 3 ∧
    ((mergeRemoteData c3Store "id" "merge" 5 c3Batch).bind
        (fun o => (mergeRemoteData o.1 "id" "merge" 5 c3Batch).map
          (fun o2 => storedVer o2.1 (JsVal.str "a")))) = some 5 ∧
    ¬ ((mergeRemoteData c3Store "id" "merge" 5 c3Batch).bind
        (fun o => (mergeRemoteData o.1 "id" "merge" 5 c3Batch).map (fun o2 => o2.1))) =
      ((mergeRemoteData c3Store "id" "merge" 5 c3Batch).map (fun o => o.1)) := by
  refine ⟨rfl, rfl, by decide⟩

/- The channel registry of the net adapter (auroradb.js lines 1950-2004).
   A channel is {header, methods}; handler functions are modelled as opaque
   numeric identifiers since only their identity matters here. -/
structure SyncChannel where
  header : String
  methods : List (String × Nat)
deriving DecidableEq

/- net.channel (lines 1972-1982): __channels__ becomes the old list with
   every channel of this header filtered out, plus the new channel pushed. -/
def removeHeader : List SyncChannel → String → List SyncChannel
  | [], _ => []
  | ch :: rest, h => if ch.header = h then removeHeader rest h else ch :: removeHeader rest h

def registerChannel (chs : List SyncChannel) (h : String) (tbl : List (String × Nat)) :
    List SyncChannel :=
  removeHeader chs h ++ [⟨h, tbl⟩]

/- The channel lookup of PeerStore.handleMessage (line 1940): the first
   channel whose header equals the message header. -/
def findChannel : List SyncChannel → String → Option SyncChannel
  | [], _ => none
  | ch :: rest, h => if ch.header = h then some ch else findChannel rest h

/- PeerStore.handleMessage (lines 1926-1948): a handler runs only when the
   topic matches a channel and the method is present in its table. -/
def dispatchLookup (chs : List SyncChannel) (header method : String) : Option Nat :=
  match findChannel chs header with
  | none => none
  | some ch => alistGet ch.methods method

/- Message handling paired with the store state it may mutate: interp gives
   the state effect of each handler; no matched handler means no effect. -/
def handleMessage (interp : Nat → KVStore → KVStore) (chs : List SyncChannel)
    (st : KVStore) (header method : String) : KVStore × Option Nat :=
  match dispatchLookup chs header method with
  | none => (st, none)
  | some hid => (interp hid st, some hid)

def countHeader : List SyncChannel → String → Nat
  | [], _ => 0
  | ch :: rest, h => (if ch.header = h then 1 else 0) + countHeader rest h

theorem findChannel_append (l₁ l₂ : List SyncChannel) (h : String) :
    findChannel (l₁ ++ l₂) h = (findChannel l₁ h).or (findChannel l₂ h) := by
  induction l₁ with
  | nil => simp [findChannel]
  | cons ch rest ih => by_cases hc : ch.header = h <;> simp [findChannel, hc, ih]

theorem findChannel_removeHeader (chs : List SyncChannel) (h : String) :
    findChannel (removeHeader chs h) h = none := by
  induction chs with
  | nil => rfl
  | cons ch rest ih => by_cases hc : ch.header = h <;> simp [removeHeader, findChannel, hc, ih]

theorem countHeader_append (l₁ l₂ : List SyncChannel) (h : String) :
    countHeader (l₁ ++ l₂) h = countHeader l₁ h + countHeader l₂ h := by
  induction l₁ with
  | nil => simp [countHeader]
  | cons ch rest ih => simp [countHeader, ih]; omega

theorem countHeader_removeHeader (chs : List SyncChannel) (h : String) :
    countHeader (removeHeader chs h) h = 0 := by
  induction chs with
  | nil => rfl
  | cons ch rest ih => by_cases hc : ch.header = h <;> simp [removeHeader, countHeader, hc, ih]

theorem mem_headers_removeHeader (chs : List SyncChannel) (h s : String)
    (hin : s ∈ (removeHeader chs h).map SyncChannel.header) : s ≠ h := by
  induction chs with
  | nil => cases hin
  | cons ch rest ih =>
      by_cases hc : ch.header = h
      · rw [removeHeader, if_pos hc] at hin
        exact ih hin
      · rw [removeHeader, if_neg hc, List.map_cons] at hin
        rcases List.mem_cons.mp hin with heq | htail
        · subst heq; exact hc
        · exact ih htail

theorem mem_removeHeader_sub (chs : List SyncChannel) (h : String) (ch : SyncChannel)
    (hin : ch ∈ removeHeader chs h) : ch ∈ chs := by
  induction chs with
  | nil => cases hin
  | cons c rest ih =>
      by_cases hc : c.header = h
      · rw [removeHeader, if_pos hc] at hin
        exact List.mem_cons_of_mem _ (ih hin)
      · rw [removeHeader, if_neg hc] at hin
        rcases List.mem_cons.mp hin with heq | htail
        · subst heq; exact List.mem_cons_self _ _
        · exact List.mem_cons_of_mem _ (ih htail)

theorem nodup_headers_removeHeader (chs : List SyncChannel) (h : String)
    (hnd : (chs.map SyncChannel.header).Nodup) :
    ((removeHeader chs h).map SyncChannel.header).Nodup := by
  induction chs with
  | nil => simp [removeHeader]
  | cons ch rest ih =>
      rw [List.map_cons, List.nodup_cons] at hnd
      by_cases hc : ch.header = h
      · rw [removeHeader, if_pos hc]
        exact ih hnd.2
      · rw [removeHeader, if_neg hc, List.map_cons, List.nodup_cons]
        refine ⟨?_, ih hnd.2⟩
        intro hmem
        exact hnd.1 (by
          obtain ⟨ch2, h2, h3⟩ := List.mem_map.mp hmem
          exact h3 ▸ List.mem_map_of_mem _ (mem_removeHeader_sub rest h ch2 h2))

theorem nodup_headers_registerChannel (chs : List SyncChannel) (h : String)
    (tbl : List (String × Nat)) (hnd : (chs.map SyncChannel.header).Nodup) :
    ((registerChannel chs h tbl).map SyncChannel.header).Nodup := by
  rw [registerChannel, List.map_append]
  refine List.Nodup.append (nodup_headers_removeHeader chs h hnd) (by simp) ?_
  intro s hs1 hs2
  simp only [List.map_cons, List.map_nil, List.mem_singleton] at hs2
  exact mem_headers_removeHeader chs h s hs1 hs2

/-- C7: registering a channel fully replaces any existing registration for
its topic: after registerChannel the topic resolves to exactly the new
channel, dispatch consults only the new handler table (so a method present
only in an earlier table is unreachable), exactly one channel with that
topic remains, and every sequence of registrations from the empty registry
keeps topics pairwise distinct. -/
theorem channel_registration_replaces :
    (∀ (chs : List SyncChannel) (h : String) (tbl : List (String × Nat)),
        findChannel (registerChannel chs h tbl) h = some ⟨h, tbl⟩) ∧
    (∀ (chs : List SyncChannel) (h : String) (tbl : List (String × Nat)) (m : String),
        dispatchLookup (registerChannel chs h tbl) h m = alistGet tbl m) ∧
    (∀ (chs : List SyncChannel) (h : String) (tbl : List (String × Nat)),
        countHeader (registerChannel chs h tbl) h = 1) ∧
    (∀ regs : List (String × List (String × Nat)),
        ((regs.foldl (fun chs r => registerChannel chs r.1 r.2) []).map
          SyncChannel.header).Nodup) := by
  have hfind : ∀ (chs : List SyncChannel) (h : String) (tbl : List (String × Nat)),
      findChannel (registerChannel chs h tbl) h = some ⟨h, tbl⟩ := by
    intro chs h tbl
    rw [registerChannel, findChannel_append, findChannel_removeHeader]
    simp [findChannel]
  refine ⟨hfind, ?_, ?_, ?_⟩
  · intro chs h tbl m
    rw [dispatchLookup, hfind]
  · intro chs h tbl
    rw [registerChannel, countHeader_append, countHeader_removeHeader]
    simp [countHeader]
  · intro regs
    have hgen : ∀ (rg : List (String × List (String × Nat))) (chs : List SyncChannel),
        (chs.map SyncChannel.header).Nodup →
        ((rg.foldl (fun chs r => registerChannel chs r.1 r.2) chs).map
          SyncChannel.header).Nodup := by
      intro rg
      induction rg with
      | nil => intro chs h; exact h
      | cons r rest ih =>
          intro chs h
          exact ih _ (nodup_headers_registerChannel chs r.1 r.2 h)
    exact hgen regs [] (by simp)

/-- C8: dispatching a message whose topic matches no registered channel, or
whose method is absent from the matched channel handler table, invokes no
handler, leaves the store unchanged and raises nothing. -/
theorem dispatch_unmatched_no_effect
    (interp : Nat → KVStore → KVStore) (chs : List SyncChannel) (st : KVStore)
    (header method : String)
    (h : findChannel chs header = none ∨
      ∃ ch, findChannel chs header = some ch ∧ alistGet ch.methods method = none) :
    handleMessage interp chs st header method = (st, none) := by
  rcases h with h | ⟨ch, hch, hm⟩
  · simp [handleMessage, dispatchLookup, h]
  · simp [handleMessage, dispatchLookup, hch, hm]

/-- C8 witness: a store-clearing handler table registered under topic users
is not invoked for an unknown method nor for an unknown topic, and the store
is returned untouched. -/
theorem dispatch_unmatched_no_effect_witness :
    handleMessage (fun _ _ => []) [⟨"users", [("sync", 1)]⟩]
        [(JsVal.str "a", ⟨[], none, none⟩)] "users" "mystery" =
      ([(JsVal.str "a", ⟨[], none, none⟩)], none) ∧
    handleMessage (fun _ _ => []) [⟨"users", [("sync", 1)]⟩]
        [(JsVal.str "a", ⟨[], none, none⟩)] "ghosts" "sync" =
      ([(JsVal.str "a", ⟨[], none, none⟩)], none) :=
  ⟨dispatch_unmatched_no_effect _ _ _ _ _ (Or.inr ⟨⟨"users", [("sync", 1)]⟩, rfl, rfl⟩),
   dispatch_unmatched_no_effect _ _ _ _ _ (Or.inl rfl)⟩

/- SecureDiscoveryLayer (auroradb.js lines 14-107).  Only the state consulted
   by validatePeer is modelled. -/
structure SecurityLayer where
  trustedNetworks : List String
deriving DecidableEq

/- validatePeer (lines 104-107): peerId && peerId.length > 8 &&
   trustedNetworks.has(discoveryMethod); an empty string models a falsy id. -/
def validatePeer (sec : SecurityLayer) (peerId discoveryMethod : String) : Bool :=
  (decide (peerId ≠ "")) && (decide (8 < peerId.length)) &&
    sec.trustedNetworks.contains discoveryMethod

/- The per-peer registry entry created and updated by handlePeerDiscovery
   (lines 534-552).  lastSeen is only written on repeat sightings.  Extra
   announcement payload spread into the entry is irrelevant to the claims
   and not carried. -/
structure PeerInfo where
  discoveryMethods : List String
  firstSeen : Int
  lastSeen : Option Int
  connectionAttempts : Nat
  connected : Bool
  connectionMethod : Option String
deriving DecidableEq

structure DiscoveryStats where
  peersDiscovered : Nat
  connectionsAttempted : Nat
  connectionsSuccessful : Nat
  discoveryMethods : Nat
deriving DecidableEq

structure DiscoveryState where
  peerRegistry : List (String × PeerInfo)
  stats : DiscoveryStats
deriving DecidableEq

/- The environment outcome of one attemptConnection call: the primary
   transport succeeded, a fallback method succeeded, or nothing connected
   (covering fallback exhaustion and caught exceptions, which leave the same
   state). -/
inductive ConnOutcome where
  | mainSuccess
  | fallbackSuccess (method : String)
  | noConnection
deriving DecidableEq

/- One peer-discovered announcement together with the environment choices the
   code consults while handling it: whether an encrypted payload failed to
   decrypt, the wall clock, whether the transport already holds a connection
   to the peer, and how the connection attempt would end. -/
structure DiscoveryEvent where
  discoveryMethod : String
  peerId : String
  decryptFailed : Bool
  now : Int
  alreadyConnected : Bool
  outcome : ConnOutcome
deriving DecidableEq

inductive DiscEmit where
  | peerDiscovered (peerId discoveryMethod : String)
  | peerConnected (peerId : String)
deriving DecidableEq

/- UniversalDiscoveryManager.attemptConnection (lines 564-599): look the peer
   up, return untouched at three or more recorded attempts, otherwise bump
   the counter and the attempt statistic and apply the outcome.  The lookup
   never misses when called from handlePeerDiscovery, which registers the
   peer first; the none branch mirrors that unreachability. -/
def attemptConnection (st : DiscoveryState) (peerId : String) (outcome : ConnOutcome) :
    DiscoveryState × List DiscEmit :=
  match alistGet st.peerRegistry peerId with
  | none => (st, [])
  | some info =>
      if 3 ≤ info.connectionAttempts then (st, [])
      else
        let info1 := { info with connectionAttempts := info.connectionAttempts + 1 }
        let stats1 := { st.stats with
          connectionsAttempted := st.stats.connectionsAttempted + 1 }
        match outcome with
        | .mainSuccess =>
            ({ peerRegistry := alistPut st.peerRegistry peerId { info1 with connected := true },
               stats := { stats1 with
                 connectionsSuccessful := stats1.connectionsSuccessful + 1 } },
             [.peerConnected peerId])
        | .fallbackSuccess m =>
            ({ peerRegistry := alistPut st.peerRegistry peerId
                 { info1 with connected := true, connectionMethod := some m },
               stats := { stats1 with
                 connectionsSuccessful := stats1.connectionsSuccessful + 1 } },
             [.peerConnected peerId])
        | .noConnection =>
            ({ peerRegistry := alistPut st.peerRegistry peerId info1, stats := stats1 }, [])

/- UniversalDiscoveryManager.handlePeerDiscovery (lines 513-562): failed
   validation or failed decryption returns with nothing changed and nothing
   dispatched; otherwise the discovery statistic is bumped, the registry
   entry is created or merged, a connection attempt runs unless the transport
   already holds one, and the peer-discovered event is dispatched. -/
def handlePeerDiscovery (sec : SecurityLayer) (st : DiscoveryState) (ev : DiscoveryEvent) :
    DiscoveryState × List DiscEmit :=
  if validatePeer sec ev.peerId ev.discoveryMethod = false then (st, [])
  else if ev.decryptFailed then (st, [])
  else
    let stats1 := { st.stats with peersDiscovered := st.stats.peersDiscovered + 1 }
    let reg1 :=
      match alistGet st.peerRegistry ev.peerId with
      | none =>
          alistPut st.peerRegistry ev.peerId
            ⟨[ev.discoveryMethod], ev.now, none, 0, false, none⟩
      | some info =>
          alistPut st.peerRegistry ev.peerId
            { info with
              discoveryMethods :=
                if info.discoveryMethods.contains ev.discoveryMethod then
                  info.discoveryMethods
                else info.discoveryMethods ++ [ev.discoveryMethod],
              lastSeen := some ev.now }
    let st1 : DiscoveryState := ⟨reg1, stats1⟩
    let next :=
      if ev.alreadyConnected then (st1, ([] : List DiscEmit))
      else attemptConnection st1 ev.peerId ev.outcome
    (next.1, .peerDiscovered ev.peerId ev.discoveryMethod :: next.2)

/- The registry and statistics are mutated only by the discovery handler, so
   the reachable states are the folds of handlePeerDiscovery over event
   traces from the initial state. -/
def runDiscovery (sec : SecurityLayer) : DiscoveryState → List DiscoveryEvent → DiscoveryState
  | st, [] => st
  | st, ev :: rest => runDiscovery sec (handlePeerDiscovery sec st ev).1 rest

def initDiscoveryState (methods : Nat) : DiscoveryState := ⟨[], ⟨0, 0, 0, methods⟩⟩

def AttemptsBounded (reg : List (String × PeerInfo)) : Prop :=
  ∀ q info, alistGet reg q = some info → info.connectionAttempts ≤ 3

theorem bounded_put (reg : List (String × PeerInfo)) (p : String) (x : PeerInfo)
    (hb : AttemptsBounded reg) (hx : x.connectionAttempts ≤ 3) :
    AttemptsBounded (alistPut reg p x) := by
  intro q info hq
  by_cases hpq : q = p
  · subst hpq
    rw [alistGet_put_self] at hq
    obtain rfl := Option.some.inj hq
    exact hx
  · rw [alistGet_put_ne _ _ _ _ hpq] at hq
    exact hb q info hq

theorem attemptConnection_registry (st : DiscoveryState) (p : String) (oc : ConnOutcome)
    (info0 : PeerInfo) (hlook : alistGet st.peerRegistry p = some info0)
    (hcap : ¬ 3 ≤ info0.connectionAttempts) :
    ∃ x : PeerInfo, (attemptConnection st p oc).1.peerRegistry = alistPut st.peerRegistry p x ∧
      x.connectionAttempts = info0.connectionAttempts + 1 ∧
      (attemptConnection st p oc).1.stats.connectionsAttempted =
        st.stats.connectionsAttempted + 1 := by
  cases oc <;> simp only [attemptConnection, hlook, hcap, if_false] <;>
    exact ⟨_, rfl, rfl, trivial⟩

theorem attemptConnection_capped (st : DiscoveryState) (p : String) (oc : ConnOutcome)
    (info : PeerInfo) (hlook : alistGet st.peerRegistry p = some info)
    (hcap : 3 ≤ info.connectionAttempts) :
    attemptConnection st p oc = (st, []) := by
  simp only [attemptConnection, hlook, hcap, if_true]

theorem attemptConnection_bounded (st : DiscoveryState) (p : String) (oc : ConnOutcome)
    (hb : AttemptsBounded st.peerRegistry) :
    AttemptsBounded (attemptConnection st p oc).1.peerRegistry := by
  rcases hlook : alistGet st.peerRegistry p with _ | info0
  · simp only [attemptConnection, hlook]
    exact hb
  · by_cases hcap : 3 ≤ info0.connectionAttempts
    · rw [attemptConnection_capped st p oc info0 hlook hcap]
      exact hb
    · obtain ⟨x, hreg, hxa, _⟩ := attemptConnection_registry st p oc info0 hlook hcap
      rw [hreg]
      have h2 : info0.connectionAttempts ≤ 2 := by omega
      exact bounded_put _ _ _ hb (by omega)

theorem validatePeer_true_of_not_false (sec : SecurityLayer) (p m : String)
    (h : ¬ validatePeer sec p m = false) : validatePeer sec p m = true := by
  cases hv : validatePeer sec p m
  · exact absurd hv h
  · rfl

theorem handlePeerDiscovery_bounded (sec : SecurityLayer) (st : DiscoveryState)
    (ev : DiscoveryEvent) (hb : AttemptsBounded st.peerRegistry) :
    AttemptsBounded (handlePeerDiscovery sec st ev).1.peerRegistry := by
  by_cases hval : validatePeer sec ev.peerId ev.discoveryMethod = false
  · simp only [handlePeerDiscovery, hval, if_pos rfl]
    exact hb
  · have hv := validatePeer_true_of_not_false sec ev.peerId ev.discoveryMethod hval
    by_cases hdf : ev.decryptFailed
    · simp only [handlePeerDiscovery, hv, Bool.true_eq_false, if_false, hdf, if_true]
      exact hb
    · rcases hlook : alistGet st.peerRegistry ev.peerId with _ | info0
      · simp only [handlePeerDiscovery, hv, Bool.true_eq_false, if_false, hdf, hlook]
        by_cases hac : ev.alreadyConnected
        · simp only [hac, if_true]
          exact bounded_put _ _ _ hb (by show (0 : Nat) ≤ 3; omega)
        · simp only [hac, if_false]
          exact attemptConnection_bounded _ _ _
            (bounded_put _ _ _ hb (by show (0 : Nat) ≤ 3; omega))
      · simp only [handlePeerDiscovery, hv, Bool.true_eq_false, if_false, hdf, hlook]
        have hb0 := hb ev.peerId info0 hlook
        by_cases hac : ev.alreadyConnected
        · simp only [hac, if_true]
          exact bounded_put _ _ _ hb hb0
        · simp only [hac, if_false]
          exact attemptConnection_bounded _ _ _ (bounded_put _ _ _ hb hb0)

theorem runDiscovery_bounded (sec : SecurityLayer) (trace : List DiscoveryEvent) :
    ∀ st : DiscoveryState, AttemptsBounded st.peerRegistry →
      AttemptsBounded (runDiscovery sec st trace).peerRegistry := by
  induction trace with
  | nil => intro st h; exact h
  | cons ev rest ih =>
      intro st h
      exact ih _ (handlePeerDiscovery_bounded sec st ev h)

theorem capped_after_step (sec : SecurityLayer) (st : DiscoveryState) (ev : DiscoveryEvent)
    (info : PeerInfo)
    (hlook : alistGet st.peerRegistry ev.peerId = some info)
    (hcap3 : info.connectionAttempts = 3) :
    (handlePeerDiscovery sec st ev).1.stats.connectionsAttempted =
        st.stats.connectionsAttempted ∧
    ∃ info2, alistGet (handlePeerDiscovery sec st ev).1.peerRegistry ev.peerId =
        some info2 ∧ info2.connectionAttempts = 3 ∧ info2.connected = info.connected := by
  by_cases hval : validatePeer sec ev.peerId ev.discoveryMethod = false
  · simp only [handlePeerDiscovery, hval, if_pos rfl]
    exact ⟨rfl, info, hlook, hcap3, rfl⟩
  · have hv := validatePeer_true_of_not_false sec ev.peerId ev.discoveryMethod hval
    by_cases hdf : ev.decryptFailed
    · simp only [handlePeerDiscovery, hv, Bool.true_eq_false, if_false, hdf, if_true]
      exact ⟨trivial, info, hlook, hcap3, rfl⟩
    · simp only [handlePeerDiscovery, hv, Bool.true_eq_false, if_false, hdf, hlook]
      by_cases hac : ev.alreadyConnected
      · simp only [hac, if_true]
        exact ⟨rfl, _, alistGet_put_self _ _ _, hcap3, rfl⟩
      · simp only [hac, if_false]
        have hstep := attemptConnection_capped
          ⟨alistPut st.peerRegistry ev.peerId
              { info with
                discoveryMethods :=
                  if info.discoveryMethods.contains ev.discoveryMethod then
                    info.discoveryMethods
                  else info.discoveryMethods ++ [ev.discoveryMethod],
                lastSeen := some ev.now },
            { st.stats with peersDiscovered := st.stats.peersDiscovered + 1 }⟩
          ev.peerId ev.outcome _ (alistGet_put_self _ _ _)
          (by show 3 ≤ info.connectionAttempts; omega)
        rw [hstep]
        exact ⟨rfl, _, alistGet_put_self _ _ _, hcap3, rfl⟩

/-- C6: in every state reachable by a trace of discovery events the recorded
connectionAttempts of every peer stays at most 3, and a further discovery
event for a peer whose counter has reached 3 leaves the attempt statistic,
the counter and the connected flag unchanged: no new connection attempt is
made. -/
theorem discovery_attempts_capped :
    (∀ (sec : SecurityLayer) (methods : Nat) (trace : List DiscoveryEvent) (p : String)
        (info : PeerInfo),
        alistGet (runDiscovery sec (initDiscoveryState methods) trace).peerRegistry p =
          some info → info.connectionAttempts ≤ 3) ∧
    (∀ (sec : SecurityLayer) (st : DiscoveryState) (ev : DiscoveryEvent) (info : PeerInfo),
        alistGet st.peerRegistry ev.peerId = some info → info.connectionAttempts = 3 →
        (handlePeerDiscovery sec st ev).1.stats.connectionsAttempted =
            st.stats.connectionsAttempted ∧
        ∃ info2, alistGet (handlePeerDiscovery sec st ev).1.peerRegistry ev.peerId =
            some info2 ∧ info2.connectionAttempts = 3 ∧ info2.connected = info.connected) := by
  constructor
  · intro sec methods trace p info hlook
    exact runDiscovery_bounded sec trace (initDiscoveryState methods)
      (by intro q i h; cases h) p info hlook
  · intro sec st ev info hlook hcap3
    exact capped_after_step sec st ev info hlook hcap3

def capSt : DiscoveryState :=
  ⟨[("peer12345678", ⟨["mqtt"], 100, none, 3, false, none⟩)], ⟨5, 3, 0, 1⟩⟩

def capEv : DiscoveryEvent := ⟨"mqtt", "peer12345678", false, 200, false, ConnOutcome.mainSuccess⟩

/-- C6 witness: one successful discovery trace yields a registered peer with
one recorded attempt, within the cap; and a discovery event for a peer
already at three attempts leaves the attempt statistic unchanged. -/
theorem discovery_attempts_capped_witness :
    (⟨["mqtt"], 100, none, 1, true, none⟩ : PeerInfo).connectionAttempts ≤ 3 ∧
    (handlePeerDiscovery ⟨["mqtt"]⟩ capSt capEv).1.stats.connectionsAttempted =
      capSt.stats.connectionsAttempted := by
  constructor
  · exact discovery_attempts_capped.1 ⟨["mqtt"]⟩ 0
      [⟨"mqtt", "peer12345678", false, 100, false, ConnOutcome.mainSuccess⟩]
      "peer12345678" _ rfl
  · exact (discovery_attempts_capped.2 ⟨["mqtt"]⟩ capSt capEv
      ⟨["mqtt"], 100, none, 3, false, none⟩ rfl rfl).1

/-- C9: the claim states that announcements failing peer validation are
dropped, counted and never surfaced as errors.  They are indeed dropped
without any error: the handler returns with the registry, the statistics and
the emitted events all untouched.  But nothing is counted: the manager keeps
no rejection counter and no statistic changes, so the amended claim drops the
counting. -/
theorem discovery_validation_failures_dropped (sec : SecurityLayer) (st : DiscoveryState)
    (ev : DiscoveryEvent)
    (h : validatePeer sec ev.peerId ev.discoveryMethod = false) :
    handlePeerDiscovery sec st ev = (st, []) := by
  simp [handlePeerDiscovery, h]

/-- C9 witness: a peer announced over a network absent from trustedNetworks
fails validation and the handler returns the state unchanged with no events. -/
theorem discovery_validation_failures_dropped_witness :
    handlePeerDiscovery ⟨["ipfs"]⟩ capSt
        ⟨"mqtt", "peer99999999", false, 300, false, ConnOutcome.noConnection⟩ =
      (capSt, []) :=
  discovery_validation_failures_dropped ⟨["ipfs"]⟩ capSt
    ⟨"mqtt", "peer99999999", false, 300, false, ConnOutcome.noConnection⟩ rfl

/-- C9 counterexample: a rejected announcement leaves every statistic of the
manager exactly as it was, so the failure is not counted anywhere, contrary
to the claim. -/
theorem discovery_rejection_not_counted :
    handlePeerDiscovery ⟨[]⟩ ⟨[], ⟨0, 0, 0, 1⟩⟩
        ⟨"mqtt", "peer12345678", false, 100, false, ConnOutcome.mainSuccess⟩ =
      (⟨[], ⟨0, 0, 0, 1⟩⟩, []) ∧
    (handlePeerDiscovery ⟨[]⟩ ⟨[], ⟨0, 0, 0, 1⟩⟩
        ⟨"mqtt", "peer12345678", false, 100, false, ConnOutcome.mainSuccess⟩).1.stats =
      ⟨0, 0, 0, 1⟩ := by
  constructor
  · rfl
  · rfl
